import Mathlib

/-!
Verification development for a small virtual-filesystem shell.

The program builds an in-memory tree from the entries of an archive and then
executes the commands ls, cd, mv, tree and exit against that tree.  The
definitions below are a shallow embedding of the functions in src/main.py:

  - Node                and its children mapping (a Python dict, i.e. an
                        insertion-ordered association list with update-in-place
                        assignment semantics);
  - _build_tree         as insertParts / insertEntry / buildTree;
  - _find_node_by_path  as findNodeByPath;
  - _dfs_tree           as dfsTree / dfsChildren;
  - _ls_cmd             as lsCmd;
  - _cd_cmd             as cdCmd;
  - _mv_cmd             as mvCmd (a raised KeyError is modelled as the
                        HandlerOutcome.exn constructor, carrying the string
                        representation of the exception);
  - _cmd_exec           as cmdExecCore / cmdExec over a handler table.

Because Python nodes are heap objects linked by reference, the file also
contains an object level model (HeapNode, buildHeap, findIdByPath, mvHeap):
a heap is a list of records addressed by index, and mv mutates records in
place and links the source record by its address, so aliasing and cycles are
represented exactly; the Unfolds relation connects an address in a heap to
the finite value tree it spells out, when one exists.

Python string primitives used by the program are modelled on the character
lists underlying Lean strings: strip of slashes, rstrip of slashes, strip of
whitespace, split on a slash, and join.  The builtin sorted is a stable sort
and is modelled by a stable insertion sort (pySorted).
-/

/-- Is the character a slash.  Used by the models of strip, rstrip and split. -/
def isSlash (c : Char) : Bool := c = '/'

/-- Characters removed by the Python str.strip() with no arguments. -/
def isPySpace (c : Char) : Bool :=
  c = ' ' || c = '\t' || c = '\n' || c = '\r' || c = '\x0b' || c = '\x0c'

/-- Core of strip: drop the characters satisfying p from both ends. -/
def stripCore (p : Char → Bool) (l : List Char) : List Char :=
  ((l.dropWhile p).reverse.dropWhile p).reverse

/-- Python s.strip(slash): remove all leading and trailing slash characters. -/
def stripSlashes (s : String) : String := String.mk (stripCore isSlash s.data)

/-- Python s.rstrip(slash): remove all trailing slash characters. -/
def rstripSlashes (s : String) : String :=
  String.mk ((s.data.reverse.dropWhile isSlash).reverse)

/-- Python s.strip() with no arguments: remove surrounding whitespace. -/
def pyStrip (s : String) : String := String.mk (stripCore isPySpace s.data)

/-- Helper for pySplit: split the character list on slashes, keeping empty
pieces, with an accumulator for the piece currently being read. -/
def splitSlashAux : List Char → List Char → List String
  | [], acc => [String.mk acc.reverse]
  | c :: rest, acc =>
      if c = '/' then String.mk acc.reverse :: splitSlashAux rest []
      else splitSlashAux rest (c :: acc)

/-- Python s.split(slash): empty pieces are kept and the result is never the
empty list (splitting the empty string gives one empty piece). -/
def pySplit (s : String) : List String := splitSlashAux s.data []

/-- Python sep.join(pieces). -/
def pyJoin (sep : String) : List String → String
  | [] => ""
  | [x] => x
  | x :: xs => x ++ sep ++ pyJoin sep xs

/-- Concatenation of a list of strings, in order. -/
def concatStrings (l : List String) : String := l.foldr (fun a b => a ++ b) ""

/-- Python repr of a string that contains no quotes or escapes: the string
surrounded by single quote characters.  This is the str() of a KeyError whose
argument is such a string. -/
def pyRepr (s : String) : String :=
  String.singleton (Char.ofNat 39) ++ s ++ String.singleton (Char.ofNat 39)

/-- The tree node of src/main.py: a name, a directory flag, and the children
dict, which maps a child name to the child node.  A Python dict preserves
insertion order, so it is modelled as an association list where assignment
overwrites in place or appends. -/
inductive Node : Type where
  | mk (name : String) (is_dir : Bool) (children : List (String × Node)) : Node

/-- Field accessor for the node name. -/
def Node.name : Node → String
  | Node.mk nm _ _ => nm

/-- Field accessor for the directory flag. -/
def Node.is_dir : Node → Bool
  | Node.mk _ d _ => d

/-- Field accessor for the children mapping. -/
def Node.children : Node → List (String × Node)
  | Node.mk _ _ cs => cs

/-- Node.has_children of src/main.py: the children dict is non-empty. -/
def Node.has_children (n : Node) : Bool := !n.children.isEmpty

/-- Python dict lookup d.get(key): the value stored at the key, if present. -/
def assocLookup {α : Type} : List (String × α) → String → Option α
  | [], _ => none
  | (k, v) :: rest, key => if k = key then some v else assocLookup rest key

/-- Python dict assignment d[key] = v: overwrite the existing entry in place,
or append a new entry at the end.  This is Node.add_child keyed by the name. -/
def updChildren : List (String × Node) → String → Node → List (String × Node)
  | [], k, v => [(k, v)]
  | (k0, v0) :: rest, k, v =>
      if k0 = k then (k, v) :: rest else (k0, v0) :: updChildren rest k v

/-- Python dict removal d.pop(key) restricted to its effect on the mapping:
drop the entry stored at the key (the KeyError raised when the key is absent
is handled at the call site in mvCmd). -/
def removeKey : List (String × Node) → String → List (String × Node)
  | [], _ => []
  | (k0, v0) :: rest, k => if k0 = k then rest else (k0, v0) :: removeKey rest k

/-- The keys of the children dict, in insertion order (dict.keys()). -/
def childKeys (cs : List (String × Node)) : List String := cs.map Prod.fst

/-- The values of the children dict, in insertion order (dict.values()). -/
def childVals (cs : List (String × Node)) : List Node := cs.map Prod.snd

/-- App._find_node_by_path of src/main.py: walk the segments from the given
node, skipping empty segments, failing as soon as a lookup fails. -/
def findNodeByPath : Node → List String → Option Node
  | t, [] => some t
  | t, p :: rest =>
      if p = "" then findNodeByPath t rest
      else
        match assocLookup t.children p with
        | none => none
        | some c => findNodeByPath c rest

/-- One walk of the loop body of App._build_tree for a single archive entry:
descend along the parts, creating a missing child with the directory flag
true for a non-final part and with the entry flag for the final part; an
existing child is reused and its flag is left untouched. -/
def insertParts : Node → List String → Bool → Node
  | t, [], _ => t
  | t, p :: rest, entryDir =>
      let child :=
        match assocLookup t.children p with
        | some c => c
        | none => Node.mk p (!rest.isEmpty || entryDir) []
      Node.mk t.name t.is_dir (updChildren t.children p (insertParts child rest entryDir))

/-- The parts of an archive entry: member.name.strip(slash).split(slash). -/
def entryParts (e : String × Bool) : List String := pySplit (stripSlashes e.1)

/-- Insert one archive entry (path, isdir flag) into the tree. -/
def insertEntry (t : Node) (e : String × Bool) : Node := insertParts t (entryParts e) e.2

/-- App._build_tree of src/main.py: fold all archive entries, in order, into a
root directory node named with a slash. -/
def buildTree (entries : List (String × Bool)) : Node :=
  entries.foldl insertEntry (Node.mk "/" true [])

/-- Stable insertion into a sorted list: walk past the elements that are
strictly below a, so an element with an equal key keeps its earlier place. -/
def insertLe {α : Type} (le : α → α → Bool) (a : α) : List α → List α
  | [] => [a]
  | b :: l => if le b a && !le a b then b :: insertLe le a l else a :: b :: l

/-- Stable insertion sort; this is the semantics of the Python builtin sorted,
which is specified to be a stable sort. -/
def pySorted {α : Type} (le : α → α → Bool) : List α → List α
  | [] => []
  | x :: xs => insertLe le x (pySorted le xs)

/-- First component of the sort key (not n.is_dir) used by _dfs_tree:
directories order before non-directories. -/
def nodeRank (n : Node) : Nat := if n.is_dir then 0 else 1

/-- The comparison induced by the _dfs_tree sort key (not n.is_dir, n.name):
lexicographic on the rank and then the name. -/
def nodeLe (a b : Node) : Bool :=
  decide (nodeRank a < nodeRank b) ||
    (decide (nodeRank a = nodeRank b) && decide (a.name.data ≤ b.name.data))

/-- Plain string comparison used by sorted(node.children.keys()) in _ls_cmd:
Python compares strings lexicographically by code point, which is the order
of the underlying character lists. -/
def strLe (a b : String) : Bool := decide (a.data ≤ b.data)

mutual
/-- App._dfs_tree of src/main.py: emit the node line (name, plus a slash when
the node is a directory), then render the children sorted by the key
(not is_dir, name), extending the indentation of each child that is not the
last with a bar marker and of the last child with blanks. -/
def dfsTree : Node → String → String
  | Node.mk nm d cs, pre =>
      pre ++ nm ++ (if d then "/\n" else "\n") ++
        dfsChildren (pySorted nodeLe (childVals cs)) pre
  termination_by n _ => sizeOf n
  decreasing_by
    have hperm : ∀ (le : Node → Node → Bool) (a : Node) (l : List Node),
        (insertLe le a l).Perm (a :: l) := by
      intro le a l
      induction l with
      | nil => simp [insertLe]
      | cons b t ih =>
          simp only [insertLe]
          by_cases h : (le b a && !le a b) = true
          · simp only [h, if_pos]
            exact ((ih.cons b).trans (List.Perm.swap a b t))
          · simp only [h]
            simp
    have hperm2 : ∀ (le : Node → Node → Bool) (l : List Node),
        (pySorted le l).Perm l := by
      intro le l
      induction l with
      | nil => simp [pySorted]
      | cons x xs ih => exact (hperm le x (pySorted le xs)).trans (ih.cons x)
    have hlt : ((childVals cs).map sizeOf).sum + 1 ≤ sizeOf cs := by
      induction cs with
      | nil => simp [childVals]
      | cons p rest ih =>
          cases p with
          | mk k v =>
              simp only [childVals, List.map_cons, List.sum_cons,
                List.cons.sizeOf_spec] at ih ⊢
              simp only [Prod.mk.sizeOf_spec]
              omega
    have hsum : ((pySorted nodeLe (childVals cs)).map sizeOf).sum
        = ((childVals cs).map sizeOf).sum :=
      List.Perm.sum_eq ((hperm2 nodeLe (childVals cs)).map sizeOf)
    have hspec : sizeOf (Node.mk nm d cs) = 1 + sizeOf nm + sizeOf d + sizeOf cs :=
      Node.mk.sizeOf_spec nm d cs
    simp only [hsum]
    omega
/-- Rendering of a list of already sorted children by _dfs_tree: the loop over
enumerate(sorted_children), where the index is below the last index exactly
when the remainder of the list is non-empty. -/
def dfsChildren : List Node → String → String
  | [], _ => ""
  | c :: rest, pre =>
      dfsTree c (pre ++ (if rest.isEmpty then "   " else "|  ")) ++ dfsChildren rest pre
  termination_by l _ => (l.map sizeOf).sum + 1
  decreasing_by
    · simp only [List.map_cons, List.sum_cons]
      omega
    · simp only [List.map_cons, List.sum_cons]
      have hpos : 0 < sizeOf c := by
        cases c with
        | mk nm2 d2 cs2 => rw [Node.mk.sizeOf_spec]; omega
      omega
end

/-- Rebuild the tree after applying f to the children mapping of the node at
the given path (walking exactly like findNodeByPath, skipping empty
segments); when the path does not resolve the tree is returned unchanged.
This expresses, functionally, the in-place mutation of the node that
_find_node_by_path returned. -/
def modifyAt : Node → List String → (List (String × Node) → List (String × Node)) → Node
  | t, [], f => Node.mk t.name t.is_dir (f t.children)
  | t, p :: rest, f =>
      if p = "" then modifyAt t rest f
      else
        match assocLookup t.children p with
        | none => t
        | some c => Node.mk t.name t.is_dir (updChildren t.children p (modifyAt c rest f))

/-- The pop of the source entry in _mv_cmd: remove the key from the children
of the node at the given path. -/
def removeAt (t : Node) (path : List String) (key : String) : Node :=
  modifyAt t path (fun cs => removeKey cs key)

/-- The add_child of the moved node in _mv_cmd: store the node under the key
in the children of the node at the given path. -/
def insertChildAt (t : Node) (path : List String) (key : String) (v : Node) : Node :=
  modifyAt t path (fun cs => updChildren cs key v)

/-- App._ls_cmd of src/main.py: the target is the argument when present, else
the current directory; when it resolves to a node with children, the keys are
sorted and joined with newlines, otherwise the result is empty; a failed
resolution also yields the empty result. -/
def lsCmd (t : Node) (cur : String) (arg : List String) : String :=
  let path := match arg with | [] => cur | a :: _ => a
  match findNodeByPath t (pySplit (stripSlashes path)) with
  | some n =>
      if n.has_children then pyJoin "\n" (pySorted strLe (childKeys n.children))
      else ""
  | none => ""

/-- App._cd_cmd of src/main.py, returning the message and the new current
directory.  The argument is stripped of slashes first; two dots go to the
parent unless already at the root; a stripped argument equal to a slash would
reset to the root (this branch is unreachable, since stripping removes every
boundary slash); otherwise the stripped argument is appended to the current
directory and the result must resolve to a directory. -/
def cdCmd (t : Node) (cur : String) (arg : List String) : String × String :=
  match arg with
  | [] => ("", cur)
  | a :: _ =>
      let targetDir := stripSlashes a
      if targetDir = ".." then
        if cur ≠ "/" then
          let parent := pyJoin "/" ((pySplit (rstripSlashes cur)).dropLast)
          ("", if parent = "" then "/" else parent)
        else ("", cur)
      else if targetDir = "/" then ("", "/")
      else
        let newDir := stripSlashes (rstripSlashes cur ++ "/" ++ targetDir)
        match findNodeByPath t (pySplit newDir) with
        | some n =>
            if n.is_dir then ("", "/" ++ newDir)
            else ("Directory not found: " ++ targetDir, cur)
        | none => ("Directory not found: " ++ targetDir, cur)

/-- Outcome of one Python command handler: a returned string, a raised
exception of class Exception carrying its str(), or process termination (the
SystemExit raised by exit(0), which the except Exception clause of the
dispatcher does not catch). -/
inductive HandlerOutcome : Type where
  | ok (res : String) : HandlerOutcome
  | exn (msg : String) : HandlerOutcome
  | terminate : HandlerOutcome

/-- App._mv_cmd of src/main.py over value trees, returning the outcome and
the new tree.  The checks run in source order: argument count, source
resolution, destination resolution, source parent resolution, then the pop
of the source key (which raises a KeyError when the key is absent from the
source parent), then the destination parent resolution on the already
detached tree, then the rename and the attach.  One corner diverges from the
object semantics: when the stripped source path has an empty final segment
and the pop still succeeds (the resolver skips empty segments, so the source
object is then the source parent itself), the Python attach links the
already mutated object and can make a node a descendant of itself, a cyclic
structure no value of type Node represents; this function attaches the
pre-pop value instead.  The object semantics, that corner included, is
modelled exactly by mvHeap below on a heap of addressed nodes. -/
def mvCmd (t : Node) (arg : List String) : HandlerOutcome × Node :=
  match arg with
  | a0 :: a1 :: _ =>
      let src := stripSlashes a0
      let dest := stripSlashes a1
      let srcParts := pySplit src
      let destParts := pySplit dest
      match findNodeByPath t srcParts with
      | none => (HandlerOutcome.ok (a0 ++ " not found."), t)
      | some srcNode =>
          match findNodeByPath t destParts with
          | some _ => (HandlerOutcome.ok ("Destination " ++ a1 ++ " already exists."), t)
          | none =>
              match findNodeByPath t srcParts.dropLast with
              | none =>
                  (HandlerOutcome.ok
                    ("Source parent not found: " ++ pyJoin "/" srcParts.dropLast), t)
              | some srcParent =>
                  let key := srcParts.getLastD ""
                  match assocLookup srcParent.children key with
                  | none => (HandlerOutcome.exn (pyRepr key), t)
                  | some _ =>
                      let t1 := removeAt t srcParts.dropLast key
                      match findNodeByPath t1 destParts.dropLast with
                      | none =>
                          (HandlerOutcome.ok
                            ("Destination parent not found: " ++
                              pyJoin "/" destParts.dropLast), t1)
                      | some _ =>
                          let dkey := destParts.getLastD ""
                          let moved := Node.mk dkey srcNode.is_dir srcNode.children
                          let t2 := insertChildAt t1 destParts.dropLast dkey moved
                          (HandlerOutcome.ok (a0 ++ " moved to " ++ a1 ++ "."), t2)
  | _ => (HandlerOutcome.ok "Usage: mv <source> <destination>", t)

/-- App._tree_cmd of src/main.py: the target is the argument when present,
else the current directory; a resolved node is rendered by dfsTree, a failed
resolution reports an explicit message. -/
def treeCmd (t : Node) (cur : String) (arg : List String) : String :=
  let path := match arg with | [] => cur | a :: _ => a
  match findNodeByPath t (pySplit (stripSlashes path)) with
  | some n => dfsTree n ""
  | none => "Directory not found."

/-- The session state owned by the command engine: the tree root and the
current directory string. -/
structure ShellState : Type where
  tree : Node
  curDir : String

/-- Type of an entry of the dispatch table of _cmd_exec. -/
abbrev HandlerFn : Type := ShellState → List String → HandlerOutcome × ShellState

/-- The ls handler: pure read of the tree and the current directory. -/
def lsHandler : HandlerFn :=
  fun st args => (HandlerOutcome.ok (lsCmd st.tree st.curDir args), st)

/-- The cd handler: may update the current directory. -/
def cdHandler : HandlerFn :=
  fun st args =>
    let r := cdCmd st.tree st.curDir args
    (HandlerOutcome.ok r.1, { st with curDir := r.2 })

/-- The mv handler: may update the tree, and may raise (KeyError). -/
def mvHandler : HandlerFn :=
  fun st args =>
    let r := mvCmd st.tree args
    (r.1, { st with tree := r.2 })

/-- The tree handler: pure read of the tree and the current directory. -/
def treeHandler : HandlerFn :=
  fun st args => (HandlerOutcome.ok (treeCmd st.tree st.curDir args), st)

/-- The exit handler: exit(0) raises SystemExit, which is not an Exception
and therefore terminates the process. -/
def exitHandler : HandlerFn := fun st _ => (HandlerOutcome.terminate, st)

/-- The commands dict of App._cmd_exec, in source order. -/
def commandTable : List (String × HandlerFn) :=
  [("ls", lsHandler), ("cd", cdHandler), ("mv", mvHandler),
   ("tree", treeHandler), ("exit", exitHandler)]

/-- Result of one dispatch: the string shown to the caller, or termination of
the process by the exit command. -/
inductive ExecResult : Type where
  | output (s : String) : ExecResult
  | terminated : ExecResult

/-- App._cmd_exec of src/main.py over an arbitrary dispatch table: empty input
or a blank first token is a no-op, an unknown command name is reported, a
handler that returns a string yields that string, a raised exception of class
Exception is converted at this boundary to an Error string, and SystemExit
passes through and ends the session. -/
def cmdExecCore (tbl : List (String × HandlerFn)) (st : ShellState)
    (lines : List String) : ExecResult × ShellState :=
  match lines with
  | [] => (ExecResult.output "", st)
  | l0 :: rest =>
      if pyStrip l0 = "" then (ExecResult.output "", st)
      else
        let cmd := pyStrip l0
        match assocLookup tbl cmd with
        | some h =>
            match h st rest with
            | (HandlerOutcome.ok res, st2) =>
                (ExecResult.output (if res = "" then "" else res), st2)
            | (HandlerOutcome.exn m, st2) =>
                (ExecResult.output ("Error: " ++ m), st2)
            | (HandlerOutcome.terminate, st2) => (ExecResult.terminated, st2)
        | none => (ExecResult.output ("Unknown command: " ++ cmd), st)

/-- App._cmd_exec with the actual command table of src/main.py. -/
def cmdExec (st : ShellState) (lines : List String) : ExecResult × ShellState :=
  cmdExecCore commandTable st lines

/-- Well-formedness of one children mapping: the keys are pairwise distinct,
every stored node carries its key as its name, and every stored node is
recursively well-formed under the given predicate. -/
def ChildrenOK (inv : Node → Prop) (cs : List (String × Node)) : Prop :=
  (childKeys cs).Nodup ∧ ∀ p ∈ cs, p.2.name = p.1 ∧ inv p.2

/-- The structural invariant of the tree: at every node, sibling names are
pairwise distinct and each child is stored under its own name.  In this value
level model a node has exactly one parent by construction, so the sharing
part of the invariant (no node reachable from two parents) holds for any
value of type Node. -/
inductive TreeInv : Node → Prop where
  | mk (nm : String) (d : Bool) (cs : List (String × Node)) :
      (childKeys cs).Nodup →
      (∀ p ∈ cs, p.2.name = p.1) →
      (∀ p ∈ cs, TreeInv p.2) →
      TreeInv (Node.mk nm d cs)

/-- Object level model of a node: the Python Node object with its children
dict holding references (heap addresses) to the child objects, not copies.
The heap itself is a list of such records, a reference being an index. -/
structure HeapNode : Type where
  name : String
  is_dir : Bool
  kids : List (String × Nat)

/-- Python dict assignment for an arbitrary value type (same semantics as
updChildren: overwrite in place or append). -/
def updAssoc {α : Type} : List (String × α) → String → α → List (String × α)
  | [], k, v => [(k, v)]
  | (k0, v0) :: rest, k, v =>
      if k0 = k then (k, v) :: rest else (k0, v0) :: updAssoc rest k v

/-- Python dict removal for an arbitrary value type (same semantics as
removeKey). -/
def removeAssoc {α : Type} : List (String × α) → String → List (String × α)
  | [], _ => []
  | (k0, v0) :: rest, k => if k0 = k then rest else (k0, v0) :: removeAssoc rest k

/-- App._find_node_by_path on the heap: walk the segments from the node at
the given address, skipping empty segments, returning the address of the
denoted object. -/
def findIdByPath : List HeapNode → Nat → List String → Option Nat
  | _, i, [] => some i
  | store, i, p :: rest =>
      if p = "" then findIdByPath store i rest
      else
        match store.get? i with
        | none => none
        | some hn =>
            match assocLookup hn.kids p with
            | none => none
            | some c => findIdByPath store c rest

/-- The loop body of App._build_tree on the heap: descend along the parts
from the node at the given address, allocating a missing child at a fresh
address and linking it into the current node in place. -/
def insertPartsH : List HeapNode → Nat → List String → Bool → List HeapNode
  | store, _, [], _ => store
  | store, cur, p :: rest, entryDir =>
      match store.get? cur with
      | none => store
      | some hn =>
          match assocLookup hn.kids p with
          | some cid => insertPartsH store cid rest entryDir
          | none =>
              let newId := store.length
              let hnew : HeapNode := HeapNode.mk p (!rest.isEmpty || entryDir) []
              let store2 := (store ++ [hnew]).set cur
                (HeapNode.mk hn.name hn.is_dir (updAssoc hn.kids p newId))
              insertPartsH store2 newId rest entryDir

/-- Insert one archive entry into the heap, starting at the root address 0. -/
def insertEntryH (store : List HeapNode) (e : String × Bool) : List HeapNode :=
  insertPartsH store 0 (entryParts e) e.2

/-- App._build_tree on the heap: the root object lives at address 0. -/
def buildHeap (entries : List (String × Bool)) : List HeapNode :=
  entries.foldl insertEntryH [HeapNode.mk "/" true []]

/-- App._mv_cmd on the heap, with the root at address 0.  This is the exact
object semantics of src/main.py: the pop mutates the source parent object in
place, the rename mutates the source object in place, and add_child stores
the ADDRESS of the source object under the destination parent, so the very
same object is linked, aliasing included.  A lookup of a dangling address
(impossible for stores produced by this program) is mapped to the same
KeyError outcome the pop would raise. -/
def mvHeap (store : List HeapNode) (arg : List String) :
    HandlerOutcome × List HeapNode :=
  match arg with
  | a0 :: a1 :: _ =>
      let src := stripSlashes a0
      let dest := stripSlashes a1
      let srcParts := pySplit src
      let destParts := pySplit dest
      match findIdByPath store 0 srcParts with
      | none => (HandlerOutcome.ok (a0 ++ " not found."), store)
      | some srcId =>
          match findIdByPath store 0 destParts with
          | some _ =>
              (HandlerOutcome.ok ("Destination " ++ a1 ++ " already exists."), store)
          | none =>
              match findIdByPath store 0 srcParts.dropLast with
              | none =>
                  (HandlerOutcome.ok
                    ("Source parent not found: " ++ pyJoin "/" srcParts.dropLast), store)
              | some parentId =>
                  let key := srcParts.getLastD ""
                  match store.get? parentId with
                  | none => (HandlerOutcome.exn (pyRepr key), store)
                  | some parentNode =>
                      match assocLookup parentNode.kids key with
                      | none => (HandlerOutcome.exn (pyRepr key), store)
                      | some _ =>
                          let store1 := store.set parentId
                            (HeapNode.mk parentNode.name parentNode.is_dir
                              (removeAssoc parentNode.kids key))
                          match findIdByPath store1 0 destParts.dropLast with
                          | none =>
                              (HandlerOutcome.ok
                                ("Destination parent not found: " ++
                                  pyJoin "/" destParts.dropLast), store1)
                          | some destParentId =>
                              let dkey := destParts.getLastD ""
                              let store2 :=
                                match store1.get? srcId with
                                | none => store1
                                | some srcNodeH =>
                                    store1.set srcId
                                      (HeapNode.mk dkey srcNodeH.is_dir srcNodeH.kids)
                              let store3 :=
                                match store2.get? destParentId with
                                | none => store2
                                | some dpNode =>
                                    store2.set destParentId
                                      (HeapNode.mk dpNode.name dpNode.is_dir
                                        (updAssoc dpNode.kids dkey srcId))
                              (HandlerOutcome.ok (a0 ++ " moved to " ++ a1 ++ "."), store3)
  | _ => (HandlerOutcome.ok "Usage: mv <source> <destination>", store)

/-- The heap at the given address spells out the given finite value tree:
the record there carries the same name and flag, the child keys agree in
order, and every child address unfolds to the corresponding child value.  A
heap whose reachable part contains a cycle unfolds to no value at all, so
the structure at an address is a tree exactly when some Node unfolds
there. -/
inductive Unfolds (store : List HeapNode) : Nat → Node → Prop where
  | mk (i : Nat) (hn : HeapNode) (cs : List (String × Node))
      (hget : store.get? i = some hn)
      (hkeys : hn.kids.map Prod.fst = cs.map Prod.fst)
      (hrec : ∀ pr ∈ hn.kids.zip cs, Unfolds store pr.1.2 pr.2.2) :
      Unfolds store i (Node.mk hn.name hn.is_dir cs)

/-! String and list helper lemmas. -/

theorem dropWhile_head_false {p : Char → Bool} :
    ∀ {l : List Char} {c : Char}, (l.dropWhile p).head? = some c → p c = false := by
  intro l
  induction l with
  | nil => intro c h; simp [List.dropWhile] at h
  | cons a rest ih =>
      intro c h
      by_cases hp : p a = true
      · rw [List.dropWhile_cons_of_pos hp] at h
        exact ih h
      · rw [List.dropWhile_cons_of_neg hp] at h
        simp at h
        subst h
        simpa using hp

theorem dropWhile_eq_self {p : Char → Bool} {l : List Char}
    (h : ∀ c, l.head? = some c → p c = false) : l.dropWhile p = l := by
  cases l with
  | nil => rfl
  | cons a rest =>
      have := h a rfl
      simp [List.dropWhile, this]

theorem dropWhile_isSfx (p : Char → Bool) (l : List Char) : l.dropWhile p <:+ l := by
  induction l with
  | nil => exact ⟨[], rfl⟩
  | cons a rest ih =>
      by_cases hp : p a = true
      · rw [List.dropWhile_cons_of_pos hp]
        obtain ⟨pre, hpre⟩ := ih
        exact ⟨a :: pre, by simp [hpre]⟩
      · rw [List.dropWhile_cons_of_neg hp]

theorem getLast?_of_sfx {r l : List Char} (h : r <:+ l) (hne : r ≠ []) :
    r.getLast? = l.getLast? := by
  obtain ⟨pre, hpre⟩ := h
  subst hpre
  rw [List.getLast?_append]
  cases h2 : r.getLast? with
  | none => exact absurd (by simpa using h2) hne
  | some x => rfl

theorem stripCore_head_false {p : Char → Bool} (l : List Char) :
    ∀ c, (stripCore p l).head? = some c → p c = false := by
  intro c hc
  unfold stripCore at hc
  rw [List.head?_reverse] at hc
  have hne : (l.dropWhile p).reverse.dropWhile p ≠ [] := by
    intro h0
    rw [h0] at hc
    simp at hc
  have := getLast?_of_sfx (dropWhile_isSfx p (l.dropWhile p).reverse) hne
  rw [this, List.getLast?_reverse] at hc
  exact dropWhile_head_false hc

theorem stripCore_getLast_false {p : Char → Bool} (l : List Char) :
    ∀ c, (stripCore p l).getLast? = some c → p c = false := by
  intro c hc
  unfold stripCore at hc
  rw [List.getLast?_reverse] at hc
  exact dropWhile_head_false hc

theorem stripCore_idem (p : Char → Bool) (l : List Char) :
    stripCore p (stripCore p l) = stripCore p l := by
  have h1 : (stripCore p l).dropWhile p = stripCore p l :=
    dropWhile_eq_self (stripCore_head_false l)
  have h2 : (stripCore p l).reverse.dropWhile p = (stripCore p l).reverse := by
    apply dropWhile_eq_self
    intro c hc
    rw [List.head?_reverse] at hc
    exact stripCore_getLast_false l c hc
  show (((stripCore p l).dropWhile p).reverse.dropWhile p).reverse = stripCore p l
  rw [h1, h2, List.reverse_reverse]

theorem stripSlashes_idem (s : String) : stripSlashes (stripSlashes s) = stripSlashes s := by
  unfold stripSlashes
  rw [show (String.mk (stripCore isSlash s.data)).data = stripCore isSlash s.data from rfl]
  rw [stripCore_idem]

theorem stripSlashes_ne_slash (s : String) : stripSlashes s ≠ "/" := by
  intro h
  have hdata : stripCore isSlash s.data = ['/'] := congrArg String.data h
  have := @stripCore_head_false isSlash s.data '/' (by rw [hdata]; rfl)
  simp [isSlash] at this

theorem splitSlashAux_ne_nil (l acc : List Char) : splitSlashAux l acc ≠ [] := by
  induction l generalizing acc with
  | nil => simp [splitSlashAux]
  | cons c rest ih =>
      by_cases h : c = '/'
      · simp [splitSlashAux, h]
      · simp only [splitSlashAux, if_neg h]
        exact ih _

theorem pySplit_ne_nil (s : String) : pySplit s ≠ [] := splitSlashAux_ne_nil _ _

theorem dropLast_append_getLastD {α : Type} (l : List α) (d : α) (h : l ≠ []) :
    l.dropLast ++ [l.getLastD d] = l := by
  induction l with
  | nil => exact absurd rfl h
  | cons a rest ih =>
      cases rest with
      | nil => rfl
      | cons b rest2 =>
          simp only [List.dropLast_cons₂, List.cons_append]
          rw [show (a :: b :: rest2).getLastD d = (b :: rest2).getLastD d from rfl]
          rw [ih (by simp)]

/-! Association list lemmas for the children mapping. -/

theorem assocLookup_updChildren_self (cs : List (String × Node)) (k : String) (v : Node) :
    assocLookup (updChildren cs k v) k = some v := by
  induction cs with
  | nil => simp [updChildren, assocLookup]
  | cons p rest ih =>
      cases p with
      | mk k0 v0 =>
          by_cases h : k0 = k
          · simp [updChildren, h, assocLookup]
          · simp [updChildren, h, assocLookup, ih]

theorem assocLookup_updChildren_ne (cs : List (String × Node)) (k a : String) (v : Node)
    (h : a ≠ k) : assocLookup (updChildren cs k v) a = assocLookup cs a := by
  induction cs with
  | nil => simp [updChildren, assocLookup, Ne.symm h]
  | cons p rest ih =>
      cases p with
      | mk k0 v0 =>
          by_cases h0 : k0 = k
          · subst h0
            simp [updChildren, assocLookup, Ne.symm h]
          · simp [updChildren, h0, assocLookup, ih]

theorem assocLookup_removeKey_ne (cs : List (String × Node)) (k a : String) (h : a ≠ k) :
    assocLookup (removeKey cs k) a = assocLookup cs a := by
  induction cs with
  | nil => simp [removeKey]
  | cons p rest ih =>
      cases p with
      | mk k0 v0 =>
          by_cases h0 : k0 = k
          · subst h0
            simp [removeKey, assocLookup, Ne.symm h]
          · simp [removeKey, h0, assocLookup, ih]

theorem assocLookup_removeKey_self (cs : List (String × Node)) (k : String)
    (h : (childKeys cs).Nodup) : assocLookup (removeKey cs k) k = none := by
  induction cs with
  | nil => simp [removeKey, assocLookup]
  | cons p rest ih =>
      cases p with
      | mk k0 v0 =>
          simp only [childKeys, List.map_cons, List.nodup_cons] at h
          by_cases h0 : k0 = k
          · subst h0
            cases hres : assocLookup rest k0 with
            | none => simp [removeKey, hres]
            | some w =>
                exfalso
                have : k0 ∈ rest.map Prod.fst := by
                  clear ih h
                  induction rest with
                  | nil => simp [assocLookup] at hres
                  | cons q rest2 ih2 =>
                      cases q with
                      | mk k1 v1 =>
                          by_cases h1 : k1 = k0
                          · simp [h1]
                          · simp only [assocLookup, if_neg h1] at hres
                            simp [ih2 hres]
                exact h.1 (by simpa [childKeys] using this)
          · simp only [removeKey, if_neg h0, assocLookup, if_neg h0]
            exact ih (by simpa [childKeys] using h.2)

theorem mem_updChildren (cs : List (String × Node)) (k : String) (v : Node) :
    ∀ p ∈ updChildren cs k v, p = (k, v) ∨ p ∈ cs := by
  induction cs with
  | nil => simp [updChildren]
  | cons q rest ih =>
      cases q with
      | mk k0 v0 =>
          intro p hp
          by_cases h0 : k0 = k
          · simp only [updChildren, if_pos h0] at hp
            rcases List.mem_cons.mp hp with hp | hp
            · exact Or.inl hp
            · exact Or.inr (List.mem_cons_of_mem _ hp)
          · simp only [updChildren, if_neg h0] at hp
            rcases List.mem_cons.mp hp with hp | hp
            · exact Or.inr (by simp [hp])
            · rcases ih p hp with h | h
              · exact Or.inl h
              · exact Or.inr (List.mem_cons_of_mem _ h)

theorem childKeys_updChildren_sub (cs : List (String × Node)) (k : String) (v : Node) :
    ∀ x ∈ childKeys (updChildren cs k v), x = k ∨ x ∈ childKeys cs := by
  intro x hx
  simp only [childKeys, List.mem_map] at hx
  obtain ⟨p, hp, hpx⟩ := hx
  rcases mem_updChildren cs k v p hp with h | h
  · subst h
    exact Or.inl hpx.symm
  · refine Or.inr ?_
    simp only [childKeys]
    rw [← hpx]
    exact List.mem_map_of_mem Prod.fst h

theorem childKeys_updChildren_nodup (cs : List (String × Node)) (k : String) (v : Node)
    (h : (childKeys cs).Nodup) : (childKeys (updChildren cs k v)).Nodup := by
  induction cs with
  | nil => simp [updChildren, childKeys]
  | cons q rest ih =>
      cases q with
      | mk k0 v0 =>
          simp only [childKeys, List.map_cons, List.nodup_cons] at h
          by_cases h0 : k0 = k
          · subst h0
            simpa [updChildren, childKeys] using h
          · simp only [updChildren, if_neg h0, childKeys, List.map_cons, List.nodup_cons]
            constructor
            · intro hmem
              rcases childKeys_updChildren_sub rest k v k0 (by simpa [childKeys] using hmem)
                with h1 | h1
              · exact h0 h1
              · exact h.1 (by simpa [childKeys] using h1)
            · exact ih h.2

theorem removeKey_sublist (cs : List (String × Node)) (k : String) :
    (removeKey cs k).Sublist cs := by
  induction cs with
  | nil => simp [removeKey]
  | cons q rest ih =>
      cases q with
      | mk k0 v0 =>
          by_cases h0 : k0 = k
          · simp only [removeKey, if_pos h0]
            exact List.sublist_cons_self _ _
          · simp only [removeKey, if_neg h0]
            exact ih.cons₂ _

theorem assocLookup_mem (cs : List (String × Node)) (a : String) (v : Node)
    (h : assocLookup cs a = some v) : (a, v) ∈ cs := by
  induction cs with
  | nil => simp [assocLookup] at h
  | cons q rest ih =>
      cases q with
      | mk k0 v0 =>
          by_cases h0 : k0 = a
          · subst h0
            have hv : v0 = v := by simpa [assocLookup] using h
            subst hv
            exact List.mem_cons_self _ _
          · simp only [assocLookup, if_neg h0] at h
            exact List.mem_cons_of_mem _ (ih h)

/-! Path resolution lemmas. -/

theorem find_append (xs : List String) :
    ∀ (t : Node) (ys : List String),
    findNodeByPath t (xs ++ ys) = (findNodeByPath t xs).bind (fun m => findNodeByPath m ys) := by
  induction xs with
  | nil => intro t ys; simp [findNodeByPath]
  | cons p rest ih =>
      intro t ys
      by_cases hp : p = ""
      · subst hp
        simp only [List.cons_append, findNodeByPath, if_pos rfl]
        exact ih t ys
      · simp only [List.cons_append, findNodeByPath, if_neg hp]
        cases assocLookup t.children p with
        | none => simp
        | some c => exact ih c ys

theorem find_filter (q : List String) :
    ∀ t : Node, findNodeByPath t q = findNodeByPath t (q.filter (fun s => s ≠ "")) := by
  induction q with
  | nil => intro t; rfl
  | cons a q2 ih =>
      intro t
      by_cases ha : a = ""
      · subst ha
        rw [List.filter_cons_of_neg (by simp)]
        simp only [findNodeByPath, if_pos rfl]
        exact ih t
      · rw [List.filter_cons_of_pos (by simp [ha])]
        simp only [findNodeByPath, if_neg ha]
        cases assocLookup t.children a with
        | none => rfl
        | some c => exact ih c

theorem modifyAt_root (path : List String) :
    ∀ (t : Node) (f : List (String × Node) → List (String × Node)),
    (modifyAt t path f).name = t.name ∧ (modifyAt t path f).is_dir = t.is_dir := by
  induction path with
  | nil => intro t f; exact ⟨rfl, rfl⟩
  | cons p rest ih =>
      intro t f
      by_cases hp : p = ""
      · subst hp
        simp only [modifyAt, if_pos rfl]
        exact ih t f
      · simp only [modifyAt, if_neg hp]
        cases assocLookup t.children p with
        | none => exact ⟨rfl, rfl⟩
        | some c => exact ⟨rfl, rfl⟩

theorem insertParts_root (t : Node) (parts : List String) (b : Bool) :
    (insertParts t parts b).name = t.name ∧ (insertParts t parts b).is_dir = t.is_dir := by
  cases parts with
  | nil => exact ⟨rfl, rfl⟩
  | cons p rest => exact ⟨rfl, rfl⟩

theorem modifyAt_find_self (path : List String) :
    ∀ (t : Node) (f : List (String × Node) → List (String × Node)) (n : Node),
    findNodeByPath t path = some n →
    findNodeByPath (modifyAt t path f) path
      = some (Node.mk n.name n.is_dir (f n.children)) := by
  induction path with
  | nil =>
      intro t f n h
      have ht : t = n := by simpa [findNodeByPath] using h
      subst ht
      rfl
  | cons p rest ih =>
      intro t f n h
      by_cases hp : p = ""
      · subst hp
        simp only [findNodeByPath, if_pos rfl] at h
        simp only [modifyAt, if_pos rfl, findNodeByPath]
        exact ih t f n h
      · simp only [findNodeByPath, if_neg hp] at h
        cases hc : assocLookup t.children p with
        | none => rw [hc] at h; exact absurd h (by simp)
        | some c =>
            rw [hc] at h
            simp only [modifyAt, if_neg hp, hc]
            simp only [findNodeByPath, if_neg hp]
            rw [show (Node.mk t.name t.is_dir
                (updChildren t.children p (modifyAt c rest f))).children
              = updChildren t.children p (modifyAt c rest f) from rfl]
            rw [assocLookup_updChildren_self]
            exact ih c f n h

/-! Characterization of the paths that resolve after tree construction. -/

theorem find_leaf (nm : String) (d : Bool) (q : List String) (hq : "" ∉ q) :
    (findNodeByPath (Node.mk nm d []) q).isSome = true ↔ q = [] := by
  cases q with
  | nil => simp [findNodeByPath]
  | cons a q2 =>
      have ha : a ≠ "" := fun h => hq (by simp [h])
      simp only [findNodeByPath, if_neg ha]
      rw [show (Node.mk nm d ([] : List (String × Node))).children = [] from rfl]
      simp [assocLookup]

theorem insertParts_find_iff (parts : List String) :
    ∀ (t : Node) (q : List String) (f : Bool), "" ∉ q →
    ((findNodeByPath (insertParts t parts f) q).isSome = true ↔
      ((findNodeByPath t q).isSome = true ∨ q <+: parts)) := by
  induction parts with
  | nil =>
      intro t q f hq
      rw [show insertParts t [] f = t from rfl]
      cases q with
      | nil => simp [findNodeByPath]
      | cons a q2 => simp
  | cons p ps ih =>
      intro t q f hq
      cases q with
      | nil => simp [findNodeByPath]
      | cons a q2 =>
          have ha : a ≠ "" := fun h => hq (by simp [h])
          have hq2 : "" ∉ q2 := fun h => hq (List.mem_cons_of_mem _ h)
          cases hc : assocLookup t.children p with
          | some c =>
              simp only [insertParts, hc]
              simp only [findNodeByPath, if_neg ha]
              rw [show (Node.mk t.name t.is_dir
                  (updChildren t.children p (insertParts c ps f))).children
                = updChildren t.children p (insertParts c ps f) from rfl]
              by_cases hap : a = p
              · subst hap
                rw [assocLookup_updChildren_self, hc]
                have := ih c q2 f hq2
                simp only [List.cons_prefix_cons]
                constructor
                · intro hh
                  rcases this.mp hh with h1 | h1
                  · exact Or.inl h1
                  · exact Or.inr ⟨trivial, h1⟩
                · intro hh
                  rcases hh with h1 | h1
                  · exact this.mpr (Or.inl h1)
                  · exact this.mpr (Or.inr h1.2)
              · rw [assocLookup_updChildren_ne _ _ _ _ hap]
                have hnp : ¬ (a :: q2 <+: p :: ps) := by
                  simp [List.cons_prefix_cons, hap]
                simp only [hnp, or_false]
          | none =>
              simp only [insertParts, hc]
              simp only [findNodeByPath, if_neg ha]
              rw [show (Node.mk t.name t.is_dir
                  (updChildren t.children p
                    (insertParts (Node.mk p (!ps.isEmpty || f) []) ps f))).children
                = updChildren t.children p
                    (insertParts (Node.mk p (!ps.isEmpty || f) []) ps f) from rfl]
              by_cases hap : a = p
              · subst hap
                rw [assocLookup_updChildren_self, hc]
                have := ih (Node.mk a (!ps.isEmpty || f) []) q2 f hq2
                rw [find_leaf _ _ _ hq2] at this
                simp only [List.cons_prefix_cons]
                constructor
                · intro hh
                  rcases this.mp hh with h1 | h1
                  · subst h1
                    exact Or.inr ⟨trivial, ⟨ps, by simp⟩⟩
                  · exact Or.inr ⟨trivial, h1⟩
                · intro hh
                  rcases hh with h1 | h1
                  · simp at h1
                  · exact this.mpr (Or.inr h1.2)
              · rw [assocLookup_updChildren_ne _ _ _ _ hap]
                have hnp : ¬ (a :: q2 <+: p :: ps) := by
                  simp [List.cons_prefix_cons, hap]
                simp only [hnp, or_false]

theorem foldl_insert_find_iff (l : List (String × Bool)) :
    ∀ (t : Node) (q : List String), "" ∉ q →
    ((findNodeByPath (l.foldl insertEntry t) q).isSome = true ↔
      ((findNodeByPath t q).isSome = true ∨ ∃ e ∈ l, q <+: entryParts e)) := by
  induction l with
  | nil => intro t q hq; simp
  | cons e l ih =>
      intro t q hq
      rw [List.foldl_cons]
      rw [ih (insertEntry t e) q hq]
      rw [show insertEntry t e = insertParts t (entryParts e) e.2 from rfl]
      rw [insertParts_find_iff (entryParts e) t q e.2 hq]
      simp only [List.mem_cons]
      constructor
      · rintro ((h | h) | ⟨e2, he2, hp2⟩)
        · exact Or.inl h
        · exact Or.inr ⟨e, Or.inl rfl, h⟩
        · exact Or.inr ⟨e2, Or.inr he2, hp2⟩
      · rintro (h | ⟨e2, (rfl | he2), hp2⟩)
        · exact Or.inl (Or.inl h)
        · exact Or.inl (Or.inr hp2)
        · exact Or.inr ⟨e2, he2, hp2⟩

theorem buildTree_find_iff (l : List (String × Bool)) (q : List String) (hq : "" ∉ q) :
    (findNodeByPath (buildTree l) q).isSome = true ↔
      (q = [] ∨ ∃ e ∈ l, q <+: entryParts e) := by
  rw [buildTree, foldl_insert_find_iff l _ q hq, find_leaf _ _ _ hq]

/-! Where a false directory flag can come from during tree construction. -/

theorem insertParts_flag (parts : List String) :
    ∀ (t : Node) (q : List String) (f : Bool) (n : Node), "" ∉ q →
    findNodeByPath (insertParts t parts f) q = some n → n.is_dir = false →
    (∃ m, findNodeByPath t q = some m ∧ m.is_dir = false) ∨ (q = parts ∧ f = false) := by
  induction parts with
  | nil =>
      intro t q f n hq h hd
      rw [show insertParts t [] f = t from rfl] at h
      exact Or.inl ⟨n, h, hd⟩
  | cons p ps ih =>
      intro t q f n hq h hd
      cases q with
      | nil =>
          have hn : n = insertParts t (p :: ps) f := by
            simpa [findNodeByPath] using h.symm
          have hflag := (insertParts_root t (p :: ps) f).2
          rw [← hn] at hflag
          refine Or.inl ⟨t, rfl, ?_⟩
          rw [← hflag, hd]
      | cons a q2 =>
          have ha : a ≠ "" := fun hh => hq (by simp [hh])
          have hq2 : "" ∉ q2 := fun hh => hq (List.mem_cons_of_mem _ hh)
          cases hc : assocLookup t.children p with
          | some c =>
              simp only [insertParts, hc] at h
              simp only [findNodeByPath, if_neg ha] at h
              rw [show (Node.mk t.name t.is_dir
                  (updChildren t.children p (insertParts c ps f))).children
                = updChildren t.children p (insertParts c ps f) from rfl] at h
              by_cases hap : a = p
              · subst hap
                rw [assocLookup_updChildren_self] at h
                rcases ih c q2 f n hq2 h hd with ⟨m, hm, hmd⟩ | ⟨hq2ps, hf⟩
                · refine Or.inl ⟨m, ?_, hmd⟩
                  simp only [findNodeByPath, if_neg ha, hc]
                  exact hm
                · exact Or.inr ⟨by rw [hq2ps], hf⟩
              · rw [assocLookup_updChildren_ne _ _ _ _ hap] at h
                refine Or.inl ⟨n, ?_, hd⟩
                simp only [findNodeByPath, if_neg ha]
                exact h
          | none =>
              simp only [insertParts, hc] at h
              simp only [findNodeByPath, if_neg ha] at h
              rw [show (Node.mk t.name t.is_dir
                  (updChildren t.children p
                    (insertParts (Node.mk p (!ps.isEmpty || f) []) ps f))).children
                = updChildren t.children p
                    (insertParts (Node.mk p (!ps.isEmpty || f) []) ps f) from rfl] at h
              by_cases hap : a = p
              · subst hap
                rw [assocLookup_updChildren_self] at h
                rcases ih _ q2 f n hq2 h hd with ⟨m, hm, hmd⟩ | ⟨hq2ps, hf⟩
                · have hq2nil : q2 = [] := by
                    by_contra hne
                    cases q2 with
                    | nil => exact hne rfl
                    | cons b q3 =>
                        have hb : b ≠ "" := fun hh => hq2 (by simp [hh])
                        simp only [findNodeByPath, if_neg hb] at hm
                        rw [show (Node.mk a (!ps.isEmpty || f)
                            ([] : List (String × Node))).children = [] from rfl] at hm
                        simp [assocLookup] at hm
                  subst hq2nil
                  have hm2 : m = Node.mk a (!ps.isEmpty || f) [] := by
                    simpa [findNodeByPath] using hm.symm
                  rw [hm2] at hmd
                  rw [show (Node.mk a (!ps.isEmpty || f)
                      ([] : List (String × Node))).is_dir = (!ps.isEmpty || f) from rfl] at hmd
                  have hps : ps.isEmpty = true := by
                    cases hh : ps.isEmpty
                    · rw [hh] at hmd; simp at hmd
                    · rfl
                  have hf : f = false := by
                    rw [hps] at hmd; simpa using hmd
                  have hps2 : ps = [] := by
                    cases ps with
                    | nil => rfl
                    | cons x xs => simp [List.isEmpty] at hps
                  exact Or.inr ⟨by rw [hps2], hf⟩
                · exact Or.inr ⟨by rw [hq2ps], hf⟩
              · rw [assocLookup_updChildren_ne _ _ _ _ hap] at h
                refine Or.inl ⟨n, ?_, hd⟩
                simp only [findNodeByPath, if_neg ha]
                exact h

theorem foldl_insert_flag (l : List (String × Bool)) :
    ∀ (t : Node) (q : List String) (n : Node), "" ∉ q →
    findNodeByPath (l.foldl insertEntry t) q = some n → n.is_dir = false →
    (∃ m, findNodeByPath t q = some m ∧ m.is_dir = false) ∨
      ∃ e ∈ l, entryParts e = q ∧ e.2 = false := by
  induction l with
  | nil =>
      intro t q n hq h hd
      exact Or.inl ⟨n, h, hd⟩
  | cons e l ih =>
      intro t q n hq h hd
      rw [List.foldl_cons] at h
      rcases ih (insertEntry t e) q n hq h hd with ⟨m, hm, hmd⟩ | ⟨e2, he2, hp2⟩
      · rw [show insertEntry t e = insertParts t (entryParts e) e.2 from rfl] at hm
        rcases insertParts_flag (entryParts e) t q e.2 m hq hm hmd with h1 | ⟨h1, h2⟩
        · exact Or.inl h1
        · exact Or.inr ⟨e, List.mem_cons_self _ _, h1.symm, h2⟩
      · exact Or.inr ⟨e2, List.mem_cons_of_mem _ he2, hp2⟩

theorem buildTree_flag (l : List (String × Bool)) (q : List String) (n : Node)
    (hq : "" ∉ q) (h : findNodeByPath (buildTree l) q = some n) (hd : n.is_dir = false) :
    ∃ e ∈ l, entryParts e = q ∧ e.2 = false := by
  rcases foldl_insert_flag l (Node.mk "/" true []) q n hq h hd with ⟨m, hm, hmd⟩ | h2
  · cases q with
    | nil =>
        have : m = Node.mk "/" true [] := by simpa [findNodeByPath] using hm.symm
        rw [this] at hmd
        simp [Node.is_dir] at hmd
    | cons a q2 =>
        have ha : a ≠ "" := fun hh => hq (by simp [hh])
        simp only [findNodeByPath, if_neg ha] at hm
        rw [show (Node.mk "/" true ([] : List (String × Node))).children = [] from rfl] at hm
        simp [assocLookup] at hm
  · exact h2

/-! Structural invariant lemmas. -/

theorem treeInv_parts {nm : String} {d : Bool} {cs : List (String × Node)}
    (h : TreeInv (Node.mk nm d cs)) :
    (childKeys cs).Nodup ∧ (∀ p ∈ cs, p.2.name = p.1) ∧ (∀ p ∈ cs, TreeInv p.2) := by
  cases h with
  | mk _ _ _ h1 h2 h3 => exact ⟨h1, h2, h3⟩

theorem find_inv (q : List String) :
    ∀ (t : Node) (n : Node), TreeInv t → findNodeByPath t q = some n → TreeInv n := by
  induction q with
  | nil =>
      intro t n ht h
      have : t = n := by simpa [findNodeByPath] using h
      rw [← this]
      exact ht
  | cons a q2 ih =>
      intro t n ht h
      by_cases ha : a = ""
      · subst ha
        simp only [findNodeByPath, if_pos rfl] at h
        exact ih t n ht h
      · simp only [findNodeByPath, if_neg ha] at h
        cases hc : assocLookup t.children a with
        | none => rw [hc] at h; exact absurd h (by simp)
        | some c =>
            rw [hc] at h
            cases t with
            | mk nm d cs =>
                have hmem := assocLookup_mem cs a c hc
                have := (treeInv_parts ht).2.2 (a, c) hmem
                exact ih c n this h

theorem updChildren_inv {nm : String} {d : Bool} {cs : List (String × Node)}
    (k : String) (v : Node) (h : TreeInv (Node.mk nm d cs)) (hname : v.name = k)
    (hv : TreeInv v) : TreeInv (Node.mk nm d (updChildren cs k v)) := by
  obtain ⟨h1, h2, h3⟩ := treeInv_parts h
  refine TreeInv.mk nm d _ (childKeys_updChildren_nodup cs k v h1) ?_ ?_
  · intro p hp
    rcases mem_updChildren cs k v p hp with hh | hh
    · rw [hh]; exact hname
    · exact h2 p hh
  · intro p hp
    rcases mem_updChildren cs k v p hp with hh | hh
    · rw [hh]; exact hv
    · exact h3 p hh

theorem removeKey_inv {nm : String} {d : Bool} {cs : List (String × Node)}
    (k : String) (h : TreeInv (Node.mk nm d cs)) :
    TreeInv (Node.mk nm d (removeKey cs k)) := by
  obtain ⟨h1, h2, h3⟩ := treeInv_parts h
  have hsub := removeKey_sublist cs k
  refine TreeInv.mk nm d _ ?_ ?_ ?_
  · exact h1.sublist (hsub.map Prod.fst)
  · intro p hp
    exact h2 p (hsub.subset hp)
  · intro p hp
    exact h3 p (hsub.subset hp)

theorem modifyAt_inv (path : List String) :
    ∀ (t : Node) (f : List (String × Node) → List (String × Node)), TreeInv t →
    (∀ (nm : String) (d : Bool) (cs : List (String × Node)),
      TreeInv (Node.mk nm d cs) → TreeInv (Node.mk nm d (f cs))) →
    TreeInv (modifyAt t path f) := by
  induction path with
  | nil =>
      intro t f ht hf
      cases t with
      | mk nm d cs => exact hf nm d cs ht
  | cons p rest ih =>
      intro t f ht hf
      by_cases hp : p = ""
      · subst hp
        simp only [modifyAt, if_pos rfl]
        exact ih t f ht hf
      · simp only [modifyAt, if_neg hp]
        cases hc : assocLookup t.children p with
        | none => exact ht
        | some c =>
            cases t with
            | mk nm d cs =>
                obtain ⟨h1, h2, h3⟩ := treeInv_parts ht
                have hmem := assocLookup_mem cs p c hc
                have hcInv : TreeInv c := h3 (p, c) hmem
                have hcName : c.name = p := h2 (p, c) hmem
                have hnew : TreeInv (modifyAt c rest f) := ih c f hcInv hf
                have hnewName : (modifyAt c rest f).name = p := by
                  rw [(modifyAt_root rest c f).1]
                  exact hcName
                exact updChildren_inv p (modifyAt c rest f) ht hnewName hnew

theorem insertParts_inv (parts : List String) :
    ∀ (t : Node) (f : Bool), TreeInv t → TreeInv (insertParts t parts f) := by
  induction parts with
  | nil => intro t f ht; exact ht
  | cons p ps ih =>
      intro t f ht
      cases hc : assocLookup t.children p with
      | some c =>
          simp only [insertParts, hc]
          cases t with
          | mk nm d cs =>
              obtain ⟨h1, h2, h3⟩ := treeInv_parts ht
              have hmem := assocLookup_mem cs p c hc
              have hcInv : TreeInv c := h3 (p, c) hmem
              have hcName : c.name = p := h2 (p, c) hmem
              have hnew : TreeInv (insertParts c ps f) := ih c f hcInv
              have hnewName : (insertParts c ps f).name = p := by
                rw [(insertParts_root c ps f).1]
                exact hcName
              exact updChildren_inv p (insertParts c ps f) ht hnewName hnew
      | none =>
          simp only [insertParts, hc]
          cases t with
          | mk nm d cs =>
              have hleaf : TreeInv (Node.mk p (!ps.isEmpty || f) []) := by
                refine TreeInv.mk _ _ _ (by simp [childKeys]) (by simp) (by simp)
              have hnew : TreeInv (insertParts (Node.mk p (!ps.isEmpty || f) []) ps f) :=
                ih _ f hleaf
              have hnewName : (insertParts (Node.mk p (!ps.isEmpty || f) []) ps f).name = p := by
                rw [(insertParts_root _ ps f).1]
                rfl
              exact updChildren_inv p _ ht hnewName hnew

theorem foldl_insert_inv (l : List (String × Bool)) :
    ∀ t : Node, TreeInv t → TreeInv (l.foldl insertEntry t) := by
  induction l with
  | nil => intro t ht; exact ht
  | cons e l ih =>
      intro t ht
      rw [List.foldl_cons]
      exact ih _ (insertParts_inv (entryParts e) t e.2 ht)

theorem buildTree_inv (l : List (String × Bool)) : TreeInv (buildTree l) := by
  rw [buildTree]
  exact foldl_insert_inv l _
    (TreeInv.mk _ _ _ (by simp [childKeys]) (by simp) (by simp))

/-! Resolution is monotone under detaching a child: removing a subtree never
makes a previously unresolvable path resolvable. -/

theorem find_mono_children (nm2 nm : String) (d2 d : Bool)
    (cs2 cs : List (String × Node))
    (hrel : ∀ b v2, assocLookup cs2 b = some v2 →
      ∃ v, assocLookup cs b = some v ∧
        ∀ p2, (findNodeByPath v2 p2).isSome = true → (findNodeByPath v p2).isSome = true) :
    ∀ p, (findNodeByPath (Node.mk nm2 d2 cs2) p).isSome = true →
      (findNodeByPath (Node.mk nm d cs) p).isSome = true := by
  intro p
  induction p with
  | nil => intro _; simp [findNodeByPath]
  | cons b p2 ihp =>
      intro h
      by_cases hb : b = ""
      · subst hb
        simp only [findNodeByPath, if_pos rfl] at h ⊢
        exact ihp h
      · simp only [findNodeByPath, if_neg hb] at h ⊢
        rw [show (Node.mk nm2 d2 cs2).children = cs2 from rfl] at h
        rw [show (Node.mk nm d cs).children = cs from rfl]
        cases hl : assocLookup cs2 b with
        | none => rw [hl] at h; simp at h
        | some v2 =>
            rw [hl] at h
            obtain ⟨v, hv, hm⟩ := hrel b v2 hl
            rw [hv]
            exact hm p2 h

theorem removeAt_mono (path : List String) :
    ∀ (t : Node) (k : String), TreeInv t →
    ∀ p, (findNodeByPath (removeAt t path k) p).isSome = true →
      (findNodeByPath t p).isSome = true := by
  induction path with
  | nil =>
      intro t k ht p h
      cases t with
      | mk nm d cs =>
          obtain ⟨h1, _, _⟩ := treeInv_parts ht
          rw [show removeAt (Node.mk nm d cs) [] k
              = Node.mk nm d (removeKey cs k) from rfl] at h
          refine find_mono_children nm nm d d (removeKey cs k) cs ?_ p h
          intro b v2 hl
          by_cases hbk : b = k
          · subst hbk
            rw [assocLookup_removeKey_self cs b h1] at hl
            exact absurd hl (by simp)
          · rw [assocLookup_removeKey_ne cs k b hbk] at hl
            exact ⟨v2, hl, fun _ hh => hh⟩
  | cons q rest ih =>
      intro t k ht p h
      by_cases hq : q = ""
      · subst hq
        rw [show removeAt t ("" :: rest) k = removeAt t rest k from by
          simp [removeAt, modifyAt]] at h
        exact ih t k ht p h
      · cases hc : assocLookup t.children q with
        | none =>
            rw [show removeAt t (q :: rest) k = t from by
              simp [removeAt, modifyAt, hq, hc]] at h
            exact h
        | some c =>
            cases t with
            | mk nm d cs =>
                obtain ⟨h1, h2, h3⟩ := treeInv_parts ht
                have hmem := assocLookup_mem cs q c hc
                have hcInv : TreeInv c := h3 (q, c) hmem
                have hc2 : assocLookup cs q = some c := hc
                rw [show removeAt (Node.mk nm d cs) (q :: rest) k
                    = Node.mk nm d (updChildren cs q (removeAt c rest k)) from by
                  simp [removeAt, modifyAt, hq, Node.children, Node.name, Node.is_dir, hc2]] at h
                refine find_mono_children nm nm d d _ cs ?_ p h
                intro b v2 hl
                by_cases hbq : b = q
                · subst hbq
                  rw [assocLookup_updChildren_self] at hl
                  have hv2 : v2 = removeAt c rest k := by
                    injection hl.symm
                  refine ⟨c, hc, ?_⟩
                  intro p2 hh
                  rw [hv2] at hh
                  exact ih c k hcInv p2 hh
                · rw [assocLookup_updChildren_ne _ _ _ _ hbq] at hl
                  exact ⟨v2, hl, fun _ hh => hh⟩

theorem removeAt_inv (t : Node) (path : List String) (k : String) (h : TreeInv t) :
    TreeInv (removeAt t path k) :=
  modifyAt_inv path t _ h (fun _ _ _ hInv => removeKey_inv k hInv)

theorem insertChildAt_inv (t : Node) (path : List String) (k : String) (v : Node)
    (h : TreeInv t) (hname : v.name = k) (hv : TreeInv v) :
    TreeInv (insertChildAt t path k v) :=
  modifyAt_inv path t _ h (fun _ _ _ hInv => updChildren_inv k v hInv hname hv)

theorem mvCmd_inv (t : Node) (arg : List String) (h : TreeInv t) :
    TreeInv (mvCmd t arg).2 := by
  unfold mvCmd
  repeat' (first | split | dsimp only)
  all_goals try exact h
  all_goals try exact removeAt_inv t _ _ h
  rename_i arg0 a0 a1 tail x4 srcNode h1 x3 h2 x2 srcParent h3 x1 w h4 x0 dp h5
  have hsrcInv : TreeInv srcNode := find_inv _ t srcNode h h1
  have hmoved : TreeInv (Node.mk ((pySplit (stripSlashes a1)).getLastD "")
      srcNode.is_dir srcNode.children) := by
    cases srcNode with
    | mk nm2 dd2 cs2 =>
        obtain ⟨g1, g2, g3⟩ := treeInv_parts hsrcInv
        exact TreeInv.mk _ _ _ g1 g2 g3
  exact insertChildAt_inv
    (removeAt t (pySplit (stripSlashes a0)).dropLast ((pySplit (stripSlashes a0)).getLastD ""))
    ((pySplit (stripSlashes a1)).dropLast)
    ((pySplit (stripSlashes a1)).getLastD "")
    (Node.mk ((pySplit (stripSlashes a1)).getLastD "") srcNode.is_dir srcNode.children)
    (removeAt_inv t _ _ h) rfl hmoved

/-! The stable sort model: permutation and sortedness. -/

theorem insertLe_perm {α : Type} (le : α → α → Bool) (a : α) (l : List α) :
    (insertLe le a l).Perm (a :: l) := by
  induction l with
  | nil => simp [insertLe]
  | cons b t ih =>
      simp only [insertLe]
      by_cases h : (le b a && !le a b) = true
      · simp only [h, if_pos]
        exact ((ih.cons b).trans (List.Perm.swap a b t))
      · simp only [h]
        simp

theorem pySorted_perm {α : Type} (le : α → α → Bool) (l : List α) :
    (pySorted le l).Perm l := by
  induction l with
  | nil => simp [pySorted]
  | cons x xs ih => exact (insertLe_perm le x (pySorted le xs)).trans (ih.cons x)

theorem insertLe_pairwise {α : Type} (le : α → α → Bool)
    (htot : ∀ a b, le a b = true ∨ le b a = true)
    (htr : ∀ a b c, le a b = true → le b c = true → le a c = true)
    (a : α) (l : List α) (hl : l.Pairwise (fun x y => le x y = true)) :
    (insertLe le a l).Pairwise (fun x y => le x y = true) := by
  induction l with
  | nil => simp [insertLe]
  | cons b tl ih =>
      rcases List.pairwise_cons.mp hl with ⟨hb, htl⟩
      by_cases hcond : (le b a && !le a b) = true
      · simp only [insertLe, if_pos hcond]
        refine List.pairwise_cons.mpr ⟨?_, ih htl⟩
        intro x hx
        have hmem := (insertLe_perm le a tl).mem_iff.mp hx
        rcases List.mem_cons.mp hmem with rfl | hx2
        · exact ((Bool.and_eq_true _ _).mp hcond).1
        · exact hb x hx2
      · simp only [insertLe, if_neg hcond]
        have hab : le a b = true := by
          by_cases h2 : le a b = true
          · exact h2
          · rcases htot a b with h3 | h3
            · exact h3
            · exfalso
              apply hcond
              simp only [Bool.and_eq_true, Bool.not_eq_true']
              exact ⟨h3, by simpa using h2⟩
        refine List.pairwise_cons.mpr ⟨?_, hl⟩
        intro x hx
        rcases List.mem_cons.mp hx with rfl | hx2
        · exact hab
        · exact htr a b x hab (hb x hx2)

theorem pySorted_pairwise {α : Type} (le : α → α → Bool)
    (htot : ∀ a b, le a b = true ∨ le b a = true)
    (htr : ∀ a b c, le a b = true → le b c = true → le a c = true)
    (l : List α) : (pySorted le l).Pairwise (fun x y => le x y = true) := by
  induction l with
  | nil => simp [pySorted]
  | cons x xs ih => exact insertLe_pairwise le htot htr x (pySorted le xs) ih

theorem nodeLe_total (a b : Node) : nodeLe a b = true ∨ nodeLe b a = true := by
  unfold nodeLe
  rcases Nat.lt_trichotomy (nodeRank a) (nodeRank b) with h | h | h
  · left; simp [h]
  · rcases le_total a.name.data b.name.data with h2 | h2
    · left; simp [h, h2]
    · right; simp [h, h2]
  · right; simp [h]

theorem nodeLe_trans (a b c : Node) (hab : nodeLe a b = true) (hbc : nodeLe b c = true) :
    nodeLe a c = true := by
  unfold nodeLe at hab hbc ⊢
  simp only [Bool.or_eq_true, Bool.and_eq_true, decide_eq_true_eq] at hab hbc ⊢
  rcases hab with h1 | ⟨h1, h1n⟩ <;> rcases hbc with h2 | ⟨h2, h2n⟩
  · left; omega
  · left; omega
  · left; omega
  · right; exact ⟨by omega, le_trans h1n h2n⟩

theorem strLe_total (a b : String) : strLe a b = true ∨ strLe b a = true := by
  unfold strLe
  rcases le_total a.data b.data with h | h
  · left; simp [h]
  · right; simp [h]

theorem strLe_trans (a b c : String) (hab : strLe a b = true) (hbc : strLe b c = true) :
    strLe a c = true := by
  unfold strLe at hab hbc ⊢
  simp only [decide_eq_true_eq] at hab hbc ⊢
  exact le_trans hab hbc

/-! Unfolding equations of the renderer, and the split of the child loop into
all-but-last and last. -/

theorem dfsTree_eq (nm : String) (d : Bool) (cs : List (String × Node)) (pre : String) :
    dfsTree (Node.mk nm d cs) pre =
      pre ++ nm ++ (if d then "/\n" else "\n") ++
        dfsChildren (pySorted nodeLe (childVals cs)) pre := by
  rw [dfsTree]

theorem dfsChildren_cons (c : Node) (rest : List Node) (pre : String) :
    dfsChildren (c :: rest) pre =
      dfsTree c (pre ++ (if rest.isEmpty then "   " else "|  ")) ++ dfsChildren rest pre := by
  rw [dfsChildren]

theorem dfsChildren_nil (pre : String) : dfsChildren [] pre = "" := by
  rw [dfsChildren]

theorem dfsChildren_split (init : List Node) (lst : Node) (pre : String) :
    dfsChildren (init ++ [lst]) pre =
      concatStrings (init.map (fun c => dfsTree c (pre ++ "|  "))) ++
        dfsTree lst (pre ++ "   ") := by
  induction init with
  | nil =>
      rw [List.nil_append, dfsChildren_cons, dfsChildren_nil]
      rw [show ([] : List Node).isEmpty = true from rfl]
      simp only [if_pos]
      rw [show concatStrings (List.map (fun c => dfsTree c (pre ++ "|  ")) []) = ""
        from rfl]
      rw [String.append_empty, String.empty_append]
  | cons c init2 ih =>
      rw [List.cons_append, dfsChildren_cons]
      rw [show (init2 ++ [lst]).isEmpty = false from by simp]
      simp only [Bool.false_eq_true, if_false]
      rw [ih]
      rw [show concatStrings (List.map (fun c => dfsTree c (pre ++ "|  ")) (c :: init2))
          = dfsTree c (pre ++ "|  ") ++
            concatStrings (List.map (fun c => dfsTree c (pre ++ "|  ")) init2) from rfl]
      rw [String.append_assoc]

/-! Claim theorems. -/

/-- C4: the claim says cd with the literal slash argument resets the current
directory to the root in every session state.  The code strips slashes from
the argument first, so the slash branch of the comparison is dead code and
cd with a slash argument re-resolves the current directory instead: from
current directory /dir1 (which exists in the tree) the command returns an
empty result and leaves the current directory at /dir1, not /.  The second
conjunct shows the reset branch is unreachable for every argument. -/
theorem cd_root_argument_failing_input :
    cdCmd (buildTree [("dir1", true)]) "/dir1" ["/"] = ("", "/dir1") ∧
    ∀ a : String, stripSlashes a ≠ "/" := by
  constructor
  · rfl
  · exact stripSlashes_ne_slash

/-- C10: cd treats an argument exactly like the argument with all leading and
trailing slashes removed, because the handler strips the argument before any
comparison or resolution; in particular an absolute looking argument is
resolved relative to the current directory, never from the root. -/
theorem cd_strip_idempotent (t : Node) (cur : String) (a : String) (rest : List String) :
    cdCmd t cur (a :: rest) = cdCmd t cur (stripSlashes a :: rest) := by
  simp only [cdCmd]
  rw [stripSlashes_idem]

/-- C5 counterexample: with the tree built from the single entry
dir1/sub/f.txt and current directory /dir1, the node dir1/sub exists, yet ls
with the argument sub returns the empty string and tree with the argument sub
reports a failed resolution: the handlers did not prepend the current
directory to the argument. -/
theorem ls_tree_relative_counterexample :
    lsCmd (buildTree [("dir1/sub/f.txt", false)]) "/dir1" ["sub"] = "" ∧
    (findNodeByPath (buildTree [("dir1/sub/f.txt", false)]) ["dir1", "sub"]).isSome = true ∧
    treeCmd (buildTree [("dir1/sub/f.txt", false)]) "/dir1" ["sub"]
      = "Directory not found." :=
  ⟨rfl, rfl, rfl⟩

/-- C5 (amended): when ls or tree is given an explicit path argument the
current directory is ignored entirely; the argument is resolved from the
root, with no prefixing by the current directory. -/
theorem ls_tree_argument_ignores_current_dir (t : Node) (cur cur2 : String)
    (a : String) (rest : List String) :
    lsCmd t cur (a :: rest) = lsCmd t cur2 (a :: rest) ∧
    treeCmd t cur (a :: rest) = treeCmd t cur2 (a :: rest) :=
  ⟨rfl, rfl⟩

/-- C2 counterexample: the two archives below contain the same entries in a
different order, yet the node a is a file in the first tree and a directory
in the second: building is not order independent for the directory flags. -/
theorem build_permutation_counterexample :
    ([(("a" : String), false), ("a/b", false)]).Perm [("a/b", false), ("a", false)] ∧
    (findNodeByPath (buildTree [("a", false), ("a/b", false)]) ["a"]).map Node.is_dir
      = some false ∧
    (findNodeByPath (buildTree [("a/b", false), ("a", false)]) ["a"]).map Node.is_dir
      = some true :=
  ⟨List.Perm.swap ("a/b", false) ("a", false) [], rfl, rfl⟩

/-- C2 (amended): building the tree from any permutation of the same archive
entries yields trees in which exactly the same paths resolve, i.e. the node
structure and the names agree; the directory flags (and the insertion order
of the children) may depend on the entry order. -/
theorem build_permutation_same_paths (l1 l2 : List (String × Bool))
    (hperm : l1.Perm l2) (q : List String) :
    (findNodeByPath (buildTree l1) q).isSome = (findNodeByPath (buildTree l2) q).isSome := by
  rw [find_filter q (buildTree l1), find_filter q (buildTree l2)]
  have hq : "" ∉ q.filter (fun s => s ≠ "") := by
    intro h
    have := (List.mem_filter.mp h).2
    simp at this
  have h1 := buildTree_find_iff l1 (q.filter (fun s => s ≠ "")) hq
  have h2 := buildTree_find_iff l2 (q.filter (fun s => s ≠ "")) hq
  have hiff : ((findNodeByPath (buildTree l1) (q.filter (fun s => s ≠ ""))).isSome = true) ↔
      ((findNodeByPath (buildTree l2) (q.filter (fun s => s ≠ ""))).isSome = true) := by
    rw [h1, h2]
    constructor
    · rintro (h | ⟨e, he, hp⟩)
      · exact Or.inl h
      · exact Or.inr ⟨e, hperm.mem_iff.mp he, hp⟩
    · rintro (h | ⟨e, he, hp⟩)
      · exact Or.inl h
      · exact Or.inr ⟨e, hperm.mem_iff.mpr he, hp⟩
  exact Bool.eq_iff_iff.mpr hiff

/-- Witness for C2: a concrete permutation pair and path, with the
hypothesis discharged by an explicit permutation. -/
theorem build_permutation_same_paths_witness :
    (findNodeByPath (buildTree [("a", false), ("b", true)]) ["b"]).isSome
      = (findNodeByPath (buildTree [("b", true), ("a", false)]) ["b"]).isSome :=
  build_permutation_same_paths _ _ (List.Perm.swap ("b", true) ("a", false) []) ["b"]

/-- C3 counterexample: after building from the entries a (file) then a/b, the
node a has a child but its directory flag is false: a node that acquires
children is not forced to be a directory. -/
theorem children_imply_dir_counterexample :
    (findNodeByPath (buildTree [("a", false), ("a/b", false)]) ["a"]).map
      (fun n => (n.is_dir, n.has_children)) = some (false, true) :=
  rfl

/-- C3 (amended): after tree construction a node can carry a false directory
flag only if some archive entry with a false directory flag has exactly that
node path; every purely intermediate node (one never named by a file entry)
is a directory.  A node that acquires children keeps the flag it was created
with, so a file entry that is a strict path prefix of another entry leaves a
non-directory node with children. -/
theorem false_flag_needs_file_entry (l : List (String × Bool)) (q : List String) (n : Node)
    (hq : "" ∉ q) (h : findNodeByPath (buildTree l) q = some n) (hd : n.is_dir = false) :
    ∃ e ∈ l, entryParts e = q ∧ e.2 = false :=
  buildTree_flag l q n hq h hd

/-- Witness for C3: the file entry x explains the false flag of the node x. -/
theorem false_flag_needs_file_entry_witness :
    entryParts ("x", false) = ["x"] ∧ (("x", false) : String × Bool).2 = false := by
  have h := false_flag_needs_file_entry [("x", false)] ["x"] (Node.mk "x" false [])
    (by decide) rfl rfl
  obtain ⟨e, he, h1, h2⟩ := h
  have he2 : e = ("x", false) := by simpa using he
  subst he2
  exact ⟨h1, h2⟩

/-- C6: ls resolves args[0] when given, else the current directory; a failed
resolution yields the empty result with no message; a node without children
yields the empty result; a node with children yields its child names joined
by newlines in a list that is a permutation of the keys and is sorted by the
plain string order, with no directory grouping. -/
theorem ls_spec (t : Node) (cur : String) (args : List String) :
    (findNodeByPath t (pySplit (stripSlashes (match args with | [] => cur | a :: _ => a)))
        = none → lsCmd t cur args = "") ∧
    (∀ n, findNodeByPath t (pySplit (stripSlashes (match args with | [] => cur | a :: _ => a)))
        = some n →
      (n.children = [] → lsCmd t cur args = "") ∧
      (n.children ≠ [] →
        lsCmd t cur args = pyJoin "\n" (pySorted strLe (childKeys n.children)) ∧
        (pySorted strLe (childKeys n.children)).Perm (childKeys n.children) ∧
        (pySorted strLe (childKeys n.children)).Pairwise (fun a b => strLe a b = true))) := by
  constructor
  · intro h
    simp only [lsCmd, h]
  · intro n h
    constructor
    · intro hc
      simp only [lsCmd, h]
      rw [show n.has_children = !n.children.isEmpty from rfl, hc]
      rfl
    · intro hc
      refine ⟨?_, pySorted_perm _ _, pySorted_pairwise _ strLe_total strLe_trans _⟩
      simp only [lsCmd, h]
      rw [show n.has_children = !n.children.isEmpty from rfl]
      have hemp : n.children.isEmpty = false := by
        cases hcc : n.children with
        | nil => exact absurd hcc hc
        | cons x xs => rfl
      rw [hemp]
      rfl

/-- Witness for C6: listing the root of a small built tree returns the keys
sorted and joined by a newline. -/
theorem ls_spec_witness :
    lsCmd (buildTree [("b", false), ("a", true)]) "/" [] = "a\nb" := by
  have h := (ls_spec (buildTree [("b", false), ("a", true)]) "/" []).2
    (Node.mk "/" true [("b", Node.mk "b" false []), ("a", Node.mk "a" true [])]) rfl
  have h2 := (h.2 (fun hh => List.noConfusion hh)).1
  rw [h2]
  decide

/-- C7: the renderer emits the node name followed by a slash exactly when the
node is a directory, then renders the children sorted by the key
(not is_dir, name), so directories first and alphabetical inside each group
(the sorted list is a permutation of the children and is pairwise ordered by
that key); every child but the last extends the indentation with a bar
marker, and the last child extends it with three blanks. -/
theorem dfs_render_spec (nm : String) (d : Bool) (cs : List (String × Node)) (pre : String) :
    (pySorted nodeLe (childVals cs)).Perm (childVals cs) ∧
    (pySorted nodeLe (childVals cs)).Pairwise (fun a b => nodeLe a b = true) ∧
    (pySorted nodeLe (childVals cs) = [] →
      dfsTree (Node.mk nm d cs) pre = pre ++ nm ++ (if d then "/\n" else "\n")) ∧
    (∀ init lst, pySorted nodeLe (childVals cs) = init ++ [lst] →
      dfsTree (Node.mk nm d cs) pre
        = pre ++ nm ++ (if d then "/\n" else "\n") ++
          concatStrings (init.map (fun c => dfsTree c (pre ++ "|  "))) ++
          dfsTree lst (pre ++ "   ")) := by
  refine ⟨pySorted_perm _ _, pySorted_pairwise _ nodeLe_total nodeLe_trans _, ?_, ?_⟩
  · intro h
    rw [dfsTree_eq, h, dfsChildren_nil, String.append_empty]
  · intro init lst h
    rw [dfsTree_eq, h, dfsChildren_split]
    simp [String.append_assoc]

/-- Witness for C7: a directory with one file child and one directory child;
the directory child sorts first and gets the bar marker, the file child is
last and gets the blank marker. -/
theorem dfs_render_spec_witness :
    pySorted nodeLe (childVals [("f", Node.mk "f" false []), ("d", Node.mk "d" true [])])
      = [Node.mk "d" true [], Node.mk "f" false []] ∧
    dfsTree (Node.mk "r" true [("f", Node.mk "f" false []), ("d", Node.mk "d" true [])]) ""
      = "" ++ "r" ++ "/\n" ++
        concatStrings ([Node.mk "d" true []].map (fun c => dfsTree c ("" ++ "|  "))) ++
        dfsTree (Node.mk "f" false []) ("" ++ "   ") := by
  constructor
  · rfl
  · exact (dfs_render_spec "r" true
      [("f", Node.mk "f" false []), ("d", Node.mk "d" true [])] "").2.2.2
      [Node.mk "d" true []] (Node.mk "f" false []) rfl

/-- C8: the dispatcher returns the empty string on empty input and on a blank
first token, reports an unknown first token that is none of ls, cd, mv, tree,
exit, and converts an exception raised inside a handler to an Error string at
the dispatch boundary (for any handler table, hence for the actual one), so a
handler failure yields output instead of terminating the loop. -/
theorem dispatch_spec :
    (∀ (tbl : List (String × HandlerFn)) (st : ShellState),
      cmdExecCore tbl st [] = (ExecResult.output "", st)) ∧
    (∀ (tbl : List (String × HandlerFn)) (st : ShellState) (l0 : String) (rest : List String),
      pyStrip l0 = "" → cmdExecCore tbl st (l0 :: rest) = (ExecResult.output "", st)) ∧
    (∀ (st : ShellState) (c : String) (args : List String),
      pyStrip c ≠ "" → pyStrip c ∉ ["ls", "cd", "mv", "tree", "exit"] →
      cmdExec st (c :: args) = (ExecResult.output ("Unknown command: " ++ pyStrip c), st)) ∧
    (∀ (tbl : List (String × HandlerFn)) (st st2 : ShellState) (c : String)
        (args : List String) (hf : HandlerFn) (m : String),
      pyStrip c ≠ "" → assocLookup tbl (pyStrip c) = some hf →
      hf st args = (HandlerOutcome.exn m, st2) →
      cmdExecCore tbl st (c :: args) = (ExecResult.output ("Error: " ++ m), st2)) := by
  refine ⟨?_, ?_, ?_, ?_⟩
  · intro tbl st
    rfl
  · intro tbl st l0 rest h
    simp [cmdExecCore, h]
  · intro st c args h hmem
    have g1 : ("ls" : String) ≠ pyStrip c := fun hh => hmem (by simp [hh.symm])
    have g2 : ("cd" : String) ≠ pyStrip c := fun hh => hmem (by simp [hh.symm])
    have g3 : ("mv" : String) ≠ pyStrip c := fun hh => hmem (by simp [hh.symm])
    have g4 : ("tree" : String) ≠ pyStrip c := fun hh => hmem (by simp [hh.symm])
    have g5 : ("exit" : String) ≠ pyStrip c := fun hh => hmem (by simp [hh.symm])
    have hnone : assocLookup commandTable (pyStrip c) = none := by
      simp only [commandTable, assocLookup, if_neg g1, if_neg g2, if_neg g3,
        if_neg g4, if_neg g5]
    simp only [cmdExec, cmdExecCore, if_neg h, hnone]
  · intro tbl st st2 c args hf m h hlook hcall
    simp only [cmdExecCore, if_neg h, hlook, hcall]

/-- Witness for C8: on the real table, a blank token, an unknown command, and
the KeyError raised by mv for a source argument consisting only of a slash
(whose stripped final segment is empty) all take the stated branches. -/
theorem dispatch_spec_witness :
    cmdExec ⟨buildTree [("a", true)], "/"⟩ ["mv", "/", "x/y"]
      = (ExecResult.output ("Error: " ++ pyRepr ""), ⟨buildTree [("a", true)], "/"⟩) ∧
    cmdExec ⟨buildTree [("a", true)], "/"⟩ ["frobnicate"]
      = (ExecResult.output ("Unknown command: " ++ pyStrip "frobnicate"),
          ⟨buildTree [("a", true)], "/"⟩) ∧
    cmdExec ⟨buildTree [("a", true)], "/"⟩ [" "]
      = (ExecResult.output "", ⟨buildTree [("a", true)], "/"⟩) := by
  refine ⟨?_, ?_, ?_⟩
  · exact dispatch_spec.2.2.2 commandTable ⟨buildTree [("a", true)], "/"⟩
      ⟨buildTree [("a", true)], "/"⟩ "mv" ["/", "x/y"] mvHandler (pyRepr "")
      (by decide) rfl rfl
  · exact dispatch_spec.2.2.1 ⟨buildTree [("a", true)], "/"⟩ "frobnicate" []
      (by decide) (by decide)
  · exact dispatch_spec.2.1 commandTable ⟨buildTree [("a", true)], "/"⟩ " " []
      (by decide)

/-- Resolution of a single non-empty segment is a lookup in the children. -/
theorem find_single (n : Node) (k : String) (hk : k ≠ "") :
    findNodeByPath n [k] = assocLookup n.children k := by
  simp only [findNodeByPath, if_neg hk]
  cases assocLookup n.children k with
  | none => rfl
  | some c => rfl

/-- C1 (amended): for an mv invocation on a well formed tree in which the
source resolves, the destination does not, the source parent resolves, the
destination parent does not, and the stripped source path has a non-empty
final segment (the source argument is not made of slashes alone, which would
instead raise a KeyError at the pop), mv reports that the destination parent
was not found, and at that point the source node has already been removed
from its old parent and attached nowhere: no extension of the source path
resolves in the resulting tree. -/
theorem mv_lost_subtree (t : Node) (a0 a1 : String) (rest : List String)
    (hInv : TreeInv t)
    (hlast : (pySplit (stripSlashes a0)).getLastD "" ≠ "")
    (h1 : (findNodeByPath t (pySplit (stripSlashes a0))).isSome = true)
    (h2 : findNodeByPath t (pySplit (stripSlashes a1)) = none)
    (h3 : (findNodeByPath t ((pySplit (stripSlashes a0)).dropLast)).isSome = true)
    (h4 : findNodeByPath t ((pySplit (stripSlashes a1)).dropLast) = none) :
    (mvCmd t (a0 :: a1 :: rest)).1
      = HandlerOutcome.ok
          ("Destination parent not found: " ++
            pyJoin "/" (pySplit (stripSlashes a1)).dropLast) ∧
    ∀ p, (pySplit (stripSlashes a0)) <+: p →
      findNodeByPath (mvCmd t (a0 :: a1 :: rest)).2 p = none := by
  obtain ⟨srcNode, hs⟩ := Option.isSome_iff_exists.mp h1
  obtain ⟨parent, hp⟩ := Option.isSome_iff_exists.mp h3
  have hsplit : (pySplit (stripSlashes a0)).dropLast ++
      [(pySplit (stripSlashes a0)).getLastD ""] = pySplit (stripSlashes a0) :=
    dropLast_append_getLastD _ _ (pySplit_ne_nil _)
  have hs2 : findNodeByPath t ((pySplit (stripSlashes a0)).dropLast ++
      [(pySplit (stripSlashes a0)).getLastD ""]) = some srcNode := by
    rw [hsplit]; exact hs
  rw [find_append, hp] at hs2
  rw [show Option.bind (some parent)
      (fun m => findNodeByPath m [(pySplit (stripSlashes a0)).getLastD ""])
      = findNodeByPath parent [(pySplit (stripSlashes a0)).getLastD ""] from rfl] at hs2
  rw [find_single parent _ hlast] at hs2
  have hParentInv : TreeInv parent := find_inv _ t parent hInv hp
  have ht1 : findNodeByPath
      (removeAt t ((pySplit (stripSlashes a0)).dropLast)
        ((pySplit (stripSlashes a0)).getLastD ""))
      ((pySplit (stripSlashes a1)).dropLast) = none := by
    cases hfid : findNodeByPath
        (removeAt t ((pySplit (stripSlashes a0)).dropLast)
          ((pySplit (stripSlashes a0)).getLastD ""))
        ((pySplit (stripSlashes a1)).dropLast) with
    | none => rfl
    | some x =>
        exfalso
        have := removeAt_mono ((pySplit (stripSlashes a0)).dropLast) t
          ((pySplit (stripSlashes a0)).getLastD "") hInv
          ((pySplit (stripSlashes a1)).dropLast) (by rw [hfid]; rfl)
        rw [h4] at this
        exact Bool.noConfusion this
  have hres : mvCmd t (a0 :: a1 :: rest)
      = (HandlerOutcome.ok
          ("Destination parent not found: " ++
            pyJoin "/" (pySplit (stripSlashes a1)).dropLast),
        removeAt t ((pySplit (stripSlashes a0)).dropLast)
          ((pySplit (stripSlashes a0)).getLastD "")) := by
    simp only [mvCmd, hs, h2, hp, hs2, ht1]
  refine ⟨by rw [hres], ?_⟩
  intro p hpre
  obtain ⟨ext, hext⟩ := hpre
  rw [hres]
  rw [show (HandlerOutcome.ok
        ("Destination parent not found: " ++
          pyJoin "/" (pySplit (stripSlashes a1)).dropLast),
      removeAt t ((pySplit (stripSlashes a0)).dropLast)
        ((pySplit (stripSlashes a0)).getLastD "")).2
    = removeAt t ((pySplit (stripSlashes a0)).dropLast)
        ((pySplit (stripSlashes a0)).getLastD "") from rfl]
  have hfind1 : findNodeByPath
      (removeAt t ((pySplit (stripSlashes a0)).dropLast)
        ((pySplit (stripSlashes a0)).getLastD ""))
      (pySplit (stripSlashes a0)) = none := by
    nth_rewrite 3 [← hsplit]
    rw [find_append]
    simp only [removeAt]
    rw [modifyAt_find_self ((pySplit (stripSlashes a0)).dropLast) t
      (fun cs => removeKey cs ((pySplit (stripSlashes a0)).getLastD "")) parent hp]
    rw [show Option.bind (some (Node.mk parent.name parent.is_dir
        (removeKey parent.children ((pySplit (stripSlashes a0)).getLastD ""))))
        (fun m => findNodeByPath m [(pySplit (stripSlashes a0)).getLastD ""])
      = findNodeByPath (Node.mk parent.name parent.is_dir
          (removeKey parent.children ((pySplit (stripSlashes a0)).getLastD "")))
          [(pySplit (stripSlashes a0)).getLastD ""] from rfl]
    rw [find_single _ _ hlast]
    rw [show (Node.mk parent.name parent.is_dir
        (removeKey parent.children ((pySplit (stripSlashes a0)).getLastD ""))).children
      = removeKey parent.children ((pySplit (stripSlashes a0)).getLastD "") from rfl]
    cases parent with
    | mk pn pd pcs =>
        obtain ⟨g1, _, _⟩ := treeInv_parts hParentInv
        exact assocLookup_removeKey_self pcs _ g1
  rw [← hext, find_append, hfind1]
  rfl

/-- C1 counterexample: the invocation mv with the arguments slash and x/y on
a tree holding one directory a satisfies all four resolution conditions of
the claim (the source, the root, resolves; x/y does not; the source parent,
also the root, resolves; the destination parent x does not), yet the command
raises a KeyError at the pop of the empty final segment: the dispatcher
reports an Error string, not the destination parent message, and the tree is
unchanged, the source still fully reachable. -/
theorem mv_lost_subtree_counterexample :
    ((findNodeByPath (buildTree [("a", true)]) (pySplit (stripSlashes "/"))).isSome
      = true) ∧
    (findNodeByPath (buildTree [("a", true)]) (pySplit (stripSlashes "x/y")) = none) ∧
    ((findNodeByPath (buildTree [("a", true)])
        ((pySplit (stripSlashes "/")).dropLast)).isSome = true) ∧
    (findNodeByPath (buildTree [("a", true)])
        ((pySplit (stripSlashes "x/y")).dropLast) = none) ∧
    mvCmd (buildTree [("a", true)]) ["/", "x/y"]
      = (HandlerOutcome.exn (pyRepr ""), buildTree [("a", true)]) ∧
    findNodeByPath (mvCmd (buildTree [("a", true)]) ["/", "x/y"]).2
      (pySplit (stripSlashes "/")) ≠ none := by
  refine ⟨rfl, rfl, rfl, rfl, rfl, ?_⟩
  intro h
  rw [show findNodeByPath (mvCmd (buildTree [("a", true)]) ["/", "x/y"]).2
      (pySplit (stripSlashes "/"))
    = some (buildTree [("a", true)]) from rfl] at h
  exact Option.noConfusion h

/-- Witness for C1: moving a/b to x/y when x does not exist loses the node b:
the destination parent message is returned and the path a/b no longer
resolves. -/
theorem mv_lost_subtree_witness :
    (mvCmd (buildTree [("a/b", false)]) ["a/b", "x/y"]).1
      = HandlerOutcome.ok
          ("Destination parent not found: " ++
            pyJoin "/" (pySplit (stripSlashes "x/y")).dropLast) ∧
    findNodeByPath (mvCmd (buildTree [("a/b", false)]) ["a/b", "x/y"]).2
      (pySplit (stripSlashes "a/b")) = none := by
  have h := mv_lost_subtree (buildTree [("a/b", false)]) "a/b" "x/y" []
    (buildTree_inv _) (by decide) rfl rfl rfl rfl
  exact ⟨h.1, h.2 _ ⟨[], by simp⟩⟩

/-- Every node value has positive size. -/
theorem node_sizeOf_pos (n : Node) : 0 < sizeOf n := by
  cases n with
  | mk nm d cs => rw [Node.mk.sizeOf_spec]; omega

/-- A child stored in a children list is smaller than the node holding it. -/
theorem sizeOf_snd_lt_node (cs : List (String × Node)) (q : String × Node) (h : q ∈ cs)
    (nm : String) (d : Bool) : sizeOf q.2 < sizeOf (Node.mk nm d cs) := by
  have h1 : sizeOf q.2 < sizeOf cs := by
    induction cs with
    | nil => simp at h
    | cons p rest ih =>
        rcases List.mem_cons.mp h with rfl | h2
        · cases q with
          | mk k v =>
              simp only [List.cons.sizeOf_spec, Prod.mk.sizeOf_spec]
              omega
        · have := ih h2
          simp only [List.cons.sizeOf_spec]
          omega
  rw [Node.mk.sizeOf_spec]
  omega

/-- C9: the claim says that after any sequence of successful mv operations
the structure remains a tree, with sibling names unique and no node under
two parents.  In the object semantics this fails: on the heap built from the
single archive entry that is a bare slash (the root object at address 0
acquires an empty-named child), the command mv with arguments slash and b
resolves the root itself as the source (empty segments are skipped by the
resolver), pops the empty-named child, renames the root object and attaches
it under itself, reporting the move as successful.  The conjuncts state:
before the move the heap spells out the built value tree (it is a tree);
the move returns the success message; afterwards the record at the root
address lists the root address itself among its children; and no finite
value tree unfolds from the root any more, so the structure is no longer a
tree.  The spec calls attaching a node under its own subtree forbidden and
notes that the code does not guard against it, so the code is the slip. -/
theorem mv_cycle_failing_input :
    Unfolds (buildHeap [("/", true)]) 0 (buildTree [("/", true)]) ∧
    (mvHeap (buildHeap [("/", true)]) ["/", "b"]).1
      = HandlerOutcome.ok "/ moved to b." ∧
    ((mvHeap (buildHeap [("/", true)]) ["/", "b"]).2.get? 0).map HeapNode.kids
      = some [("b", 0)] ∧
    ∀ n : Node, ¬ Unfolds (mvHeap (buildHeap [("/", true)]) ["/", "b"]).2 0 n := by
  refine ⟨?_, rfl, rfl, ?_⟩
  · refine Unfolds.mk 0 (HeapNode.mk "/" true [("", 1)]) [("", Node.mk "" true [])]
      rfl rfl ?_
    intro pr hpr
    simp only [List.zip, List.zipWith] at hpr
    rcases List.mem_singleton.mp hpr with rfl
    refine Unfolds.mk 1 (HeapNode.mk "" true []) [] rfl rfl ?_
    intro pr2 hpr2
    simp at hpr2
  · have key : ∀ (k : Nat) (n : Node), sizeOf n ≤ k →
        ¬ Unfolds (mvHeap (buildHeap [("/", true)]) ["/", "b"]).2 0 n := by
      intro k
      induction k with
      | zero =>
          intro n hle
          have := node_sizeOf_pos n
          omega
      | succ k ih =>
          intro n hle hu
          cases hu with
          | mk i hn cs hget hkeys hrec =>
              have hc : (mvHeap (buildHeap [("/", true)]) ["/", "b"]).2.get? 0
                  = some (HeapNode.mk "b" true [("b", 0)]) := rfl
              have hhn : hn = HeapNode.mk "b" true [("b", 0)] := by
                have h2 := hc.symm.trans hget
                exact (Option.some_inj.mp h2).symm
              subst hhn
              cases cs with
              | nil => simp at hkeys
              | cons q cs2 =>
                  cases cs2 with
                  | cons q2 cs3 => simp at hkeys
                  | nil =>
                      have hmem : (("b", 0), q) ∈
                          ((HeapNode.mk "b" true [("b", 0)]).kids.zip [q]) := by
                        simp [List.zip]
                      have hrec2 := hrec (("b", 0), q) hmem
                      have hsz := sizeOf_snd_lt_node [q] q (List.mem_singleton_self q)
                        (HeapNode.mk "b" true [("b", 0)]).name
                        (HeapNode.mk "b" true [("b", 0)]).is_dir
                      exact ih q.2 (by omega) hrec2
    intro n
    exact key (sizeOf n) n le_rfl
